import Mathlib

/-!
Shallow embedding of the gospec combinator library (krocos/gospec).

The Go package builds boolean expression trees over caller-supplied leaf
predicates.  A leaf is a value with
`IsSatisfiedBy(ctx, candidate) (bool, error)` and `Describe() string`;
the package adds four composite node kinds (`andSpec`, `orSpec`,
`xorSpec`, `notSpec`) and builder methods `And`, `Or`, `Xor`, `Not`
on `compositeSpec` that construct them.

Here a predicate over candidates of type `α` with errors of type `ε` is a
tree `Spec α ε`; a leaf carries the pure function `α → Bool × Option ε`
(the `ctx` parameter is never consulted by the engine, so it is dropped)
and its description string.  Go's `(bool, error)` return becomes
`Bool × Option ε`, with `none` standing for a nil error.
-/

namespace Gospec

inductive Spec (α ε : Type) where
  | leaf (f : α → Bool × Option ε) (d : String)
  | and (conditions : List (Spec α ε))
  | or (conditions : List (Spec α ε))
  | xor (left right : Spec α ε)
  | not (condition : Spec α ε)

variable {α ε : Type}

mutual

/-- Translation of the `IsSatisfiedBy` methods of `gospec.go`:
`andSpec.IsSatisfiedBy` (lines 57-70) and `orSpec.IsSatisfiedBy`
(lines 92-105) loop over their conditions via `evalAndList` /
`evalOrList`; `xorSpec.IsSatisfiedBy` (lines 128-140) evaluates left
then right; `notSpec.IsSatisfiedBy` (lines 157-164) complements its
child.  Each loop iteration checks the error first (`if err != nil`)
and then the boolean, exactly as the Go code does. -/
def Spec.isSatisfiedBy : Spec α ε → α → Bool × Option ε
  | .leaf f _, x => f x
  | .and cs, x => evalAndList cs x
  | .or cs, x => evalOrList cs x
  | .xor l r, x =>
    match l.isSatisfiedBy x with
    | (_, some err) => (false, some err)
    | (lv, none) =>
      match r.isSatisfiedBy x with
      | (_, some err) => (false, some err)
      | (rv, none) => (lv != rv, none)
  | .not c, x =>
    match c.isSatisfiedBy x with
    | (_, some err) => (false, some err)
    | (b, none) => (!b, none)

def evalAndList : List (Spec α ε) → α → Bool × Option ε
  | [], _ => (true, none)
  | c :: rest, x =>
    match c.isSatisfiedBy x with
    | (_, some err) => (false, some err)
    | (false, none) => (false, none)
    | (true, none) => evalAndList rest x

def evalOrList : List (Spec α ε) → α → Bool × Option ε
  | [], _ => (false, none)
  | c :: rest, x =>
    match c.isSatisfiedBy x with
    | (_, some err) => (false, some err)
    | (true, none) => (true, none)
    | (false, none) => evalOrList rest x

end

/-- Translation of `compositeSpec.And` (gospec.go lines 30-32) composed
with `newAndSpec` (lines 51-55): the new conjunction's conditions are
the receiver, then `condition`, then the `others`, in argument order. -/
def Spec.And (s condition : Spec α ε) (others : List (Spec α ε)) : Spec α ε :=
  Spec.and (s :: condition :: others)

/-- Translation of `compositeSpec.Or` (gospec.go lines 34-36) with
`newOrSpec` (lines 86-90). -/
def Spec.Or (s condition : Spec α ε) (others : List (Spec α ε)) : Spec α ε :=
  Spec.or (s :: condition :: others)

/-- Translation of `compositeSpec.Xor` (gospec.go lines 38-40) with
`newXorSpec` (lines 122-126). -/
def Spec.Xor (s condition : Spec α ε) : Spec α ε :=
  Spec.xor s condition

/-- Translation of `compositeSpec.Not` (gospec.go lines 42-44) with
`newNotSpec` (lines 151-155). -/
def Spec.Not (s : Spec α ε) : Spec α ε :=
  Spec.not s

mutual

/-- Instrumented shadow of `Spec.isSatisfiedBy`: identical control flow,
but additionally records, in chronological order, every node on which
`IsSatisfiedBy` is invoked (a node is appended before its children are
evaluated).  Used to state the short-circuit / never-invoked claims;
`evalT_fst` proves its result component agrees with
`Spec.isSatisfiedBy`. -/
def Spec.evalT : Spec α ε → α → (Bool × Option ε) × List (Spec α ε)
  | .leaf f d, x => (f x, [Spec.leaf f d])
  | .and cs, x =>
    let p := evalTAndList cs x
    (p.1, Spec.and cs :: p.2)
  | .or cs, x =>
    let p := evalTOrList cs x
    (p.1, Spec.or cs :: p.2)
  | .xor l r, x =>
    match l.evalT x with
    | ((_, some err), tl) => ((false, some err), Spec.xor l r :: tl)
    | ((lv, none), tl) =>
      match r.evalT x with
      | ((_, some err), tr) => ((false, some err), Spec.xor l r :: (tl ++ tr))
      | ((rv, none), tr) => ((lv != rv, none), Spec.xor l r :: (tl ++ tr))
  | .not c, x =>
    match c.evalT x with
    | ((_, some err), tc) => ((false, some err), Spec.not c :: tc)
    | ((b, none), tc) => ((!b, none), Spec.not c :: tc)

/-- Instrumented shadow of `evalAndList` (the loop of
`andSpec.IsSatisfiedBy`). -/
def evalTAndList : List (Spec α ε) → α → (Bool × Option ε) × List (Spec α ε)
  | [], _ => ((true, none), [])
  | c :: rest, x =>
    match c.evalT x with
    | ((_, some err), tc) => ((false, some err), tc)
    | ((false, none), tc) => ((false, none), tc)
    | ((true, none), tc) =>
      let p := evalTAndList rest x
      (p.1, tc ++ p.2)

/-- Instrumented shadow of `evalOrList` (the loop of
`orSpec.IsSatisfiedBy`). -/
def evalTOrList : List (Spec α ε) → α → (Bool × Option ε) × List (Spec α ε)
  | [], _ => ((false, none), [])
  | c :: rest, x =>
    match c.evalT x with
    | ((_, some err), tc) => ((false, some err), tc)
    | ((true, none), tc) => ((true, none), tc)
    | ((false, none), tc) =>
      let p := evalTOrList rest x
      (p.1, tc ++ p.2)

end

mutual

/-- The instrumented evaluator computes the same `(bool, error)` result
as the direct translation of the Go code. -/
theorem evalT_fst : ∀ (s : Spec α ε) (x : α), (s.evalT x).1 = s.isSatisfiedBy x
  | .leaf f d, x => by simp [Spec.evalT, Spec.isSatisfiedBy]
  | .and cs, x => by simp [Spec.evalT, Spec.isSatisfiedBy, evalTAndList_fst cs x]
  | .or cs, x => by simp [Spec.evalT, Spec.isSatisfiedBy, evalTOrList_fst cs x]
  | .xor l r, x => by
    have hl := evalT_fst l x
    have hr := evalT_fst r x
    rcases hL : l.evalT x with ⟨⟨lb, le⟩, tl⟩
    rcases hR : r.evalT x with ⟨⟨rb, re⟩, tr⟩
    rw [hL] at hl
    rw [hR] at hr
    cases le <;> cases re <;>
      simp [Spec.evalT, Spec.isSatisfiedBy, hL, hR, ← hl, ← hr]
  | .not c, x => by
    have hc := evalT_fst c x
    rcases hC : c.evalT x with ⟨⟨cb, ce⟩, tc⟩
    rw [hC] at hc
    cases ce <;> simp [Spec.evalT, Spec.isSatisfiedBy, hC, ← hc]

theorem evalTAndList_fst : ∀ (cs : List (Spec α ε)) (x : α),
    (evalTAndList cs x).1 = evalAndList cs x
  | [], x => by simp [evalTAndList, evalAndList]
  | c :: rest, x => by
    have hc := evalT_fst c x
    rcases hC : c.evalT x with ⟨⟨cb, ce⟩, tc⟩
    rw [hC] at hc
    cases ce <;> cases cb <;>
      simp [evalTAndList, evalAndList, hC, ← hc, evalTAndList_fst rest x]

theorem evalTOrList_fst : ∀ (cs : List (Spec α ε)) (x : α),
    (evalTOrList cs x).1 = evalOrList cs x
  | [], x => by simp [evalTOrList, evalOrList]
  | c :: rest, x => by
    have hc := evalT_fst c x
    rcases hC : c.evalT x with ⟨⟨cb, ce⟩, tc⟩
    rw [hC] at hc
    cases ce <;> cases cb <;>
      simp [evalTOrList, evalOrList, hC, ← hc, evalTOrList_fst rest x]

end

mutual

/-- Translation of the `Describe` methods of `gospec.go`:
`andSpec.Describe` (lines 72-79) and `orSpec.Describe` (lines 107-114)
join their conditions with `" AND "` / `" OR "` inside parentheses;
`xorSpec.Describe` (lines 142-144) renders `"(l XOR r)"`;
`notSpec.Describe` (lines 166-168) renders `"NOT(child)"`; a leaf
supplies its own description string. -/
def Spec.describe : Spec α ε → String
  | .leaf _ d => d
  | .and cs => "(" ++ String.intercalate " AND " (describeList cs) ++ ")"
  | .or cs => "(" ++ String.intercalate " OR " (describeList cs) ++ ")"
  | .xor l r => "(" ++ l.describe ++ " XOR " ++ r.describe ++ ")"
  | .not c => "NOT(" ++ c.describe ++ ")"

/-- The description-collecting loop shared by `andSpec.Describe` and
`orSpec.Describe`. -/
def describeList : List (Spec α ε) → List String
  | [] => []
  | c :: rest => c.describe :: describeList rest

end

/-- Modelled from the spec: the Operator Vocabulary, "a single
process-wide mapping {AND, OR, XOR, NOT} → display token".  The file
defining `SetOperators` and the vocabulary-consulting `Describe`
variant is not among the sources (the test file calls
`gospec.SetOperators("&&", "||", "!=", "!")`, but `src/gospec.go`
hard-codes the tokens); the global mutable vocabulary is modelled as an
explicit value passed to the rendering function. -/
structure Operators where
  andToken : String
  orToken : String
  xorToken : String
  notToken : String

/-- Modelled from the spec: the vocabulary is "initialized at process
start to the defaults" `{"AND","OR","XOR","NOT"}`. -/
def defaultOperators : Operators :=
  ⟨"AND", "OR", "XOR", "NOT"⟩

mutual

/-- Modelled from the spec: description rendering under a given
Operator Vocabulary — conjunction and disjunction join the children's
descriptions with the AND/OR token inside parentheses, exclusive-or
renders the two sides around the XOR token, negation prefixes the NOT
token to the parenthesized child. -/
def describeWith (ops : Operators) : Spec α ε → String
  | .leaf _ d => d
  | .and cs =>
    "(" ++ String.intercalate (" " ++ ops.andToken ++ " ") (describeListWith ops cs) ++ ")"
  | .or cs =>
    "(" ++ String.intercalate (" " ++ ops.orToken ++ " ") (describeListWith ops cs) ++ ")"
  | .xor l r =>
    "(" ++ describeWith ops l ++ (" " ++ ops.xorToken ++ " ") ++ describeWith ops r ++ ")"
  | .not c => ops.notToken ++ "(" ++ describeWith ops c ++ ")"

/-- Modelled from the spec: the description-collecting loop of the
vocabulary-aware renderer. -/
def describeListWith (ops : Operators) : List (Spec α ε) → List String
  | [] => []
  | c :: rest => describeWith ops c :: describeListWith ops rest

end

mutual

/-- Rendering under the default vocabulary coincides with the
hard-coded `Describe` of `src/gospec.go` on every tree. -/
theorem describeWith_default : ∀ (s : Spec α ε),
    describeWith defaultOperators s = s.describe
  | .leaf f d => by simp [describeWith, Spec.describe]
  | .and cs => by
    have h := describeListWith_default cs
    simp only [defaultOperators] at h
    simp [describeWith, Spec.describe, defaultOperators, h]
  | .or cs => by
    have h := describeListWith_default cs
    simp only [defaultOperators] at h
    simp [describeWith, Spec.describe, defaultOperators, h]
  | .xor l r => by
    have hl := describeWith_default l
    have hr := describeWith_default r
    simp only [defaultOperators] at hl hr
    simp [describeWith, Spec.describe, defaultOperators, hl, hr]
  | .not c => by
    have h := describeWith_default c
    simp only [defaultOperators] at h
    simp [describeWith, Spec.describe, defaultOperators, h]

theorem describeListWith_default : ∀ (cs : List (Spec α ε)),
    describeListWith defaultOperators cs = describeList cs
  | [] => by simp [describeListWith, describeList]
  | c :: rest => by
    have hc := describeWith_default c
    have hrest := describeListWith_default rest
    simp only [defaultOperators] at hc hrest
    simp [describeListWith, describeList, defaultOperators, hc, hrest]

end

/-- Distinguishes the four composite node kinds (`andSpec`, `orSpec`,
`xorSpec`, `notSpec`) from caller-supplied leaves. -/
def Spec.isComposite : Spec α ε → Bool
  | .leaf _ _ => false
  | _ => true

/-- A leaf predicate that is satisfied by every candidate. -/
def leafT : Spec Nat Nat :=
  .leaf (fun _ => (true, none)) "T"

/-- A leaf predicate that is satisfied by no candidate. -/
def leafF : Spec Nat Nat :=
  .leaf (fun _ => (false, none)) "F"

/-- A leaf predicate that always fails with error `7`. -/
def leafE : Spec Nat Nat :=
  .leaf (fun _ => (false, some 7)) "E"

/-- A leaf predicate that always fails with error `9`. -/
def leafE9 : Spec Nat Nat :=
  .leaf (fun _ => (false, some 9)) "E9"

/-- A leaf predicate that returns `true` together with error `3` — Go
leaves may pair a non-nil error with a `true` boolean. -/
def leafTE : Spec Nat Nat :=
  .leaf (fun _ => (true, some 3)) "TE"

/-- C1: for every pair of predicates `a` and `b` and every candidate
`x` on which both evaluate without error, `a.And(b)` evaluated on `x`
returns the boolean AND of the two results (with nil error) and
`a.Or(b)` returns the boolean OR. -/
theorem And_Or_eval_binary (a b : Spec α ε) (x : α) (av bv : Bool)
    (ha : a.isSatisfiedBy x = (av, none)) (hb : b.isSatisfiedBy x = (bv, none)) :
    (a.And b []).isSatisfiedBy x = (av && bv, none) ∧
    (a.Or b []).isSatisfiedBy x = (av || bv, none) := by
  cases av <;> cases bv <;>
    simp [Spec.And, Spec.Or, Spec.isSatisfiedBy, evalAndList, evalOrList, ha, hb]

theorem And_Or_eval_binary_witness :
    (leafT.isSatisfiedBy 0 = (true, none) ∧ leafF.isSatisfiedBy 0 = (false, none)) ∧
    (leafT.And leafF []).isSatisfiedBy 0 = (true && false, none) ∧
    (leafT.Or leafF []).isSatisfiedBy 0 = (true || false, none) :=
  ⟨⟨by simp [leafT, Spec.isSatisfiedBy], by simp [leafF, Spec.isSatisfiedBy]⟩,
    And_Or_eval_binary leafT leafF 0 true false
      (by simp [leafT, Spec.isSatisfiedBy]) (by simp [leafF, Spec.isSatisfiedBy])⟩

/-- C2: if `f` returns `(false, nil)` on `x`, then `f.And(e)` returns
`(false, nil)` on `x` and `e` is never invoked: the invocation trace of
the conjunction is the conjunction node followed by exactly the
invocations of `f` alone, whatever predicate `e` is. -/
theorem and_short_circuit_skips_rest (f e : Spec α ε) (x : α)
    (hf : f.isSatisfiedBy x = (false, none)) :
    (f.And e []).isSatisfiedBy x = (false, none) ∧
    (f.And e []).evalT x = ((false, none), Spec.And f e [] :: (f.evalT x).2) := by
  have h1 := evalT_fst f x
  rcases hF : f.evalT x with ⟨p, tf⟩
  rw [hF] at h1
  simp only at h1
  rw [hf] at h1
  subst h1
  constructor
  · simp [Spec.And, Spec.isSatisfiedBy, evalAndList, hf]
  · simp [Spec.And, Spec.evalT, evalTAndList, hF]

theorem and_short_circuit_skips_rest_witness :
    leafF.isSatisfiedBy 0 = (false, none) ∧
    (leafF.And leafE []).isSatisfiedBy 0 = (false, none) ∧
    (leafF.And leafE []).evalT 0 = ((false, none), Spec.And leafF leafE [] :: (leafF.evalT 0).2) :=
  ⟨by simp [leafF, Spec.isSatisfiedBy],
    and_short_circuit_skips_rest leafF leafE 0 (by simp [leafF, Spec.isSatisfiedBy])⟩

/-- C3: if `t` returns `(true, nil)` on `x`, then `t.Or(e)` returns
`(true, nil)` on `x` and `e` is never invoked: the invocation trace of
the disjunction is the disjunction node followed by exactly the
invocations of `t` alone. -/
theorem or_short_circuit_skips_rest (t e : Spec α ε) (x : α)
    (ht : t.isSatisfiedBy x = (true, none)) :
    (t.Or e []).isSatisfiedBy x = (true, none) ∧
    (t.Or e []).evalT x = ((true, none), Spec.Or t e [] :: (t.evalT x).2) := by
  have h1 := evalT_fst t x
  rcases hT : t.evalT x with ⟨p, tt⟩
  rw [hT] at h1
  simp only at h1
  rw [ht] at h1
  subst h1
  constructor
  · simp [Spec.Or, Spec.isSatisfiedBy, evalOrList, ht]
  · simp [Spec.Or, Spec.evalT, evalTOrList, hT]

theorem or_short_circuit_skips_rest_witness :
    leafT.isSatisfiedBy 0 = (true, none) ∧
    (leafT.Or leafE []).isSatisfiedBy 0 = (true, none) ∧
    (leafT.Or leafE []).evalT 0 = ((true, none), Spec.Or leafT leafE [] :: (leafT.evalT 0).2) :=
  ⟨by simp [leafT, Spec.isSatisfiedBy],
    or_short_circuit_skips_rest leafT leafE 0 (by simp [leafT, Spec.isSatisfiedBy])⟩

/-- A list with a last element is nonempty. -/
theorem ne_nil_of_getLast?_some {β : Type} {l : List β} {a : β}
    (h : l.getLast? = some a) : l ≠ [] := by
  intro hnil
  subst hnil
  simp at h

/-- Prepending to a nonempty list does not change its last element. -/
theorem getLast?_cons_of_ne_nil {β : Type} {l : List β} (a : β) (h : l ≠ []) :
    (a :: l).getLast? = l.getLast? := by
  cases l with
  | nil => exact absurd rfl h
  | cons b t => exact List.getLast?_cons_cons

mutual

theorem evalT_err_last_aux : ∀ (s : Spec α ε) (x : α) (err : ε),
    (s.isSatisfiedBy x).2 = some err →
    ∃ f d, ((s.evalT x).2.getLast? = some (Spec.leaf f d) ∧ (f x).2 = some err)
  | .leaf f d, x, err => by
    intro h
    simp only [Spec.isSatisfiedBy] at h
    exact ⟨f, d, by simp [Spec.evalT], h⟩
  | .and cs, x, err => by
    intro h
    simp only [Spec.isSatisfiedBy] at h
    obtain ⟨f, d, hlast, herr⟩ := evalTAndList_err_last cs x err h
    refine ⟨f, d, ?_, herr⟩
    simp only [Spec.evalT]
    rw [getLast?_cons_of_ne_nil _ (ne_nil_of_getLast?_some hlast)]
    exact hlast
  | .or cs, x, err => by
    intro h
    simp only [Spec.isSatisfiedBy] at h
    obtain ⟨f, d, hlast, herr⟩ := evalTOrList_err_last cs x err h
    refine ⟨f, d, ?_, herr⟩
    simp only [Spec.evalT]
    rw [getLast?_cons_of_ne_nil _ (ne_nil_of_getLast?_some hlast)]
    exact hlast
  | .xor l r, x, err => by
    intro h
    have hl := evalT_fst l x
    have hr := evalT_fst r x
    rcases hL : l.evalT x with ⟨⟨lb, le⟩, tl⟩
    rcases hR : r.evalT x with ⟨⟨rb, re⟩, tr⟩
    rw [hL] at hl
    rw [hR] at hr
    cases le with
    | some e =>
      have hiso : (Spec.isSatisfiedBy l x).2 = some err := by
        rw [← hl]
        simp only [Spec.isSatisfiedBy, ← hl] at h
        simpa using h
      obtain ⟨f, d, hlast, herr⟩ := evalT_err_last_aux l x err hiso
      rw [hL] at hlast
      refine ⟨f, d, ?_, herr⟩
      simp only [Spec.evalT, hL]
      rw [getLast?_cons_of_ne_nil _ (ne_nil_of_getLast?_some hlast)]
      exact hlast
    | none =>
      cases re with
      | some e =>
        have hiso : (Spec.isSatisfiedBy r x).2 = some err := by
          rw [← hr]
          simp only [Spec.isSatisfiedBy, ← hl, ← hr] at h
          simpa using h
        obtain ⟨f, d, hlast, herr⟩ := evalT_err_last_aux r x err hiso
        rw [hR] at hlast
        refine ⟨f, d, ?_, herr⟩
        simp only [Spec.evalT, hL, hR]
        have htr : tr ≠ [] := ne_nil_of_getLast?_some hlast
        rw [getLast?_cons_of_ne_nil _ (by simp [htr])]
        rw [List.getLast?_append_of_ne_nil tl htr]
        exact hlast
      | none =>
        exfalso
        simp only [Spec.isSatisfiedBy, ← hl, ← hr] at h
        simp at h
  | .not c, x, err => by
    intro h
    have hc := evalT_fst c x
    rcases hC : c.evalT x with ⟨⟨cb, ce⟩, tc⟩
    rw [hC] at hc
    cases ce with
    | some e =>
      have hiso : (Spec.isSatisfiedBy c x).2 = some err := by
        rw [← hc]
        simp only [Spec.isSatisfiedBy, ← hc] at h
        simpa using h
      obtain ⟨f, d, hlast, herr⟩ := evalT_err_last_aux c x err hiso
      rw [hC] at hlast
      refine ⟨f, d, ?_, herr⟩
      simp only [Spec.evalT, hC]
      rw [getLast?_cons_of_ne_nil _ (ne_nil_of_getLast?_some hlast)]
      exact hlast
    | none =>
      exfalso
      simp only [Spec.isSatisfiedBy, ← hc] at h
      simp at h

theorem evalTAndList_err_last : ∀ (cs : List (Spec α ε)) (x : α) (err : ε),
    (evalAndList cs x).2 = some err →
    ∃ f d, ((evalTAndList cs x).2.getLast? = some (Spec.leaf f d) ∧ (f x).2 = some err)
  | [], x, err => by
    intro h
    simp [evalAndList] at h
  | c :: rest, x, err => by
    intro h
    have hc := evalT_fst c x
    rcases hC : c.evalT x with ⟨⟨cb, ce⟩, tc⟩
    rw [hC] at hc
    cases ce with
    | some e =>
      have hiso : (Spec.isSatisfiedBy c x).2 = some err := by
        rw [← hc]
        simp only [evalAndList, ← hc] at h
        simpa using h
      obtain ⟨f, d, hlast, herr⟩ := evalT_err_last_aux c x err hiso
      rw [hC] at hlast
      exact ⟨f, d, by simp [evalTAndList, hC, hlast], herr⟩
    | none =>
      cases cb with
      | false =>
        exfalso
        simp only [evalAndList, ← hc] at h
        simp at h
      | true =>
        have hrest : (evalAndList rest x).2 = some err := by
          simp only [evalAndList, ← hc] at h
          simpa using h
        obtain ⟨f, d, hlast, herr⟩ := evalTAndList_err_last rest x err hrest
        refine ⟨f, d, ?_, herr⟩
        simp only [evalTAndList, hC]
        rw [List.getLast?_append_of_ne_nil tc (ne_nil_of_getLast?_some hlast)]
        exact hlast

theorem evalTOrList_err_last : ∀ (cs : List (Spec α ε)) (x : α) (err : ε),
    (evalOrList cs x).2 = some err →
    ∃ f d, ((evalTOrList cs x).2.getLast? = some (Spec.leaf f d) ∧ (f x).2 = some err)
  | [], x, err => by
    intro h
    simp [evalOrList] at h
  | c :: rest, x, err => by
    intro h
    have hc := evalT_fst c x
    rcases hC : c.evalT x with ⟨⟨cb, ce⟩, tc⟩
    rw [hC] at hc
    cases ce with
    | some e =>
      have hiso : (Spec.isSatisfiedBy c x).2 = some err := by
        rw [← hc]
        simp only [evalOrList, ← hc] at h
        simpa using h
      obtain ⟨f, d, hlast, herr⟩ := evalT_err_last_aux c x err hiso
      rw [hC] at hlast
      exact ⟨f, d, by simp [evalTOrList, hC, hlast], herr⟩
    | none =>
      cases cb with
      | true =>
        exfalso
        simp only [evalOrList, ← hc] at h
        simp at h
      | false =>
        have hrest : (evalOrList rest x).2 = some err := by
          simp only [evalOrList, ← hc] at h
          simpa using h
        obtain ⟨f, d, hlast, herr⟩ := evalTOrList_err_last rest x err hrest
        refine ⟨f, d, ?_, herr⟩
        simp only [evalTOrList, hC]
        rw [List.getLast?_append_of_ne_nil tc (ne_nil_of_getLast?_some hlast)]
        exact hlast

end

/-- C4: whenever evaluation of a tree returns a non-nil error, the last
node invoked during the whole evaluation is a leaf whose own evaluation
produced exactly that error value — evaluation stopped at the erring
child (no sibling or other node was evaluated after it) and the
identical error was returned, unwrapped, from the root call. -/
theorem error_aborts_to_root (s : Spec α ε) (x : α) (err : ε)
    (h : (s.isSatisfiedBy x).2 = some err) :
    ∃ f d, ((s.evalT x).2.getLast? = some (Spec.leaf f d) ∧ (f x).2 = some err) :=
  evalT_err_last_aux s x err h

theorem error_aborts_to_root_witness :
    ((Spec.and [leafT, leafE, leafF]).isSatisfiedBy 0).2 = some 7 ∧
    ∃ f d, (((Spec.and [leafT, leafE, leafF]).evalT 0).2.getLast? = some (Spec.leaf f d) ∧
      (f 0).2 = some 7) :=
  ⟨by simp [Spec.isSatisfiedBy, evalAndList, leafT, leafE],
    error_aborts_to_root (Spec.and [leafT, leafE, leafF]) 0 7
      (by simp [Spec.isSatisfiedBy, evalAndList, leafT, leafE])⟩

/-- C5: `a.Xor(b)` evaluates left then right; a left error yields
`(false, err)` without invoking the right side (the trace is the xor
node followed by exactly the left side's invocations); a right error
after a successful left yields `(false, err)`; and when both succeed
the result is `(left != right, nil)`, true iff exactly one side is
true, for every boolean combination. -/
theorem Xor_eval_semantics (a b : Spec α ε) (x : α) :
    (∀ lb err, a.isSatisfiedBy x = (lb, some err) →
      ((a.Xor b).isSatisfiedBy x = (false, some err) ∧
       (a.Xor b).evalT x = ((false, some err), Spec.Xor a b :: (a.evalT x).2))) ∧
    (∀ lv rb err, a.isSatisfiedBy x = (lv, none) → b.isSatisfiedBy x = (rb, some err) →
      (a.Xor b).isSatisfiedBy x = (false, some err)) ∧
    (∀ lv rv, a.isSatisfiedBy x = (lv, none) → b.isSatisfiedBy x = (rv, none) →
      ((a.Xor b).isSatisfiedBy x = (lv != rv, none) ∧
       ((lv != rv) = true ↔ ((lv = true ∧ rv = false) ∨ (lv = false ∧ rv = true))))) := by
  refine ⟨?_, ?_, ?_⟩
  · intro lb err ha
    constructor
    · simp [Spec.Xor, Spec.isSatisfiedBy, ha]
    · have h1 := evalT_fst a x
      rcases hA : a.evalT x with ⟨p, ta⟩
      rw [hA] at h1
      simp only at h1
      rw [ha] at h1
      subst h1
      simp [Spec.Xor, Spec.evalT, hA]
  · intro lv rb err ha hb
    simp [Spec.Xor, Spec.isSatisfiedBy, ha, hb]
  · intro lv rv ha hb
    constructor
    · simp [Spec.Xor, Spec.isSatisfiedBy, ha, hb]
    · cases lv <;> cases rv <;> simp

theorem Xor_eval_semantics_witness :
    ((leafE.Xor leafT).isSatisfiedBy 0 = (false, some 7) ∧
     (leafE.Xor leafT).evalT 0 = ((false, some 7), Spec.Xor leafE leafT :: (leafE.evalT 0).2)) ∧
    (leafT.Xor leafE).isSatisfiedBy 0 = (false, some 7) ∧
    ((leafT.Xor leafF).isSatisfiedBy 0 = ((true != false), none) ∧
     ((true != false) = true ↔ ((true = true ∧ false = false) ∨ (true = false ∧ false = true)))) :=
  ⟨(Xor_eval_semantics leafE leafT 0).1 false 7 (by simp [leafE, Spec.isSatisfiedBy]),
    (Xor_eval_semantics leafT leafE 0).2.1 true false 7
      (by simp [leafT, Spec.isSatisfiedBy]) (by simp [leafE, Spec.isSatisfiedBy]),
    (Xor_eval_semantics leafT leafF 0).2.2 true false
      (by simp [leafT, Spec.isSatisfiedBy]) (by simp [leafF, Spec.isSatisfiedBy])⟩

/-- C6 counterexample: with two operands that both err — with errors
`7` and `9` — `a.Xor(b)` returns the left operand's error, so the two
operand orders give different evaluation results. -/
theorem Xor_result_comm_cex :
    ¬ ((leafE.Xor leafE9).isSatisfiedBy 0 = (leafE9.Xor leafE).isSatisfiedBy 0) := by
  simp [Spec.Xor, Spec.isSatisfiedBy, leafE, leafE9]

/-- C6 amended: the evaluation result of `a.Xor(b)` on `x` equals that
of `b.Xor(a)` on `x` provided the two sides do not fail with distinct
error values (in particular whenever at least one side evaluates
without error). -/
theorem Xor_result_comm_amended (a b : Spec α ε) (x : α)
    (h : ∀ ea eb, (a.isSatisfiedBy x).2 = some ea → (b.isSatisfiedBy x).2 = some eb → ea = eb) :
    (a.Xor b).isSatisfiedBy x = (b.Xor a).isSatisfiedBy x := by
  rcases hA : a.isSatisfiedBy x with ⟨ab, ae⟩
  rcases hB : b.isSatisfiedBy x with ⟨bb, be⟩
  cases ae with
  | some ea =>
    cases be with
    | some eb =>
      have he : ea = eb := h ea eb (by rw [hA]) (by rw [hB])
      subst he
      simp [Spec.Xor, Spec.isSatisfiedBy, hA, hB]
    | none => simp [Spec.Xor, Spec.isSatisfiedBy, hA, hB]
  | none =>
    cases be with
    | some eb => simp [Spec.Xor, Spec.isSatisfiedBy, hA, hB]
    | none =>
      cases ab <;> cases bb <;> simp [Spec.Xor, Spec.isSatisfiedBy, hA, hB]

theorem Xor_result_comm_amended_witness :
    (∀ ea eb, (leafT.isSatisfiedBy 0).2 = some ea → (leafF.isSatisfiedBy 0).2 = some eb →
      ea = eb) ∧
    (leafT.Xor leafF).isSatisfiedBy 0 = (leafF.Xor leafT).isSatisfiedBy 0 :=
  ⟨by simp [leafT, Spec.isSatisfiedBy],
    Xor_result_comm_amended leafT leafF 0 (by simp [leafT, Spec.isSatisfiedBy])⟩

/-- C7 counterexample: a leaf that returns `true` together with a
non-nil error refutes double-negation identity as stated — the leaf
evaluates to `(true, err)` but `a.Not().Not()` returns `(false, err)`,
because `notSpec.IsSatisfiedBy` discards the boolean on error. -/
theorem not_not_outcome_cex :
    ¬ ((leafTE.Not.Not).isSatisfiedBy 0 = leafTE.isSatisfiedBy 0) := by
  simp [Spec.Not, Spec.isSatisfiedBy, leafTE]

/-- C7 amended: `a.Not().Not()` yields the same `(bool, error)` outcome
as `a` on every candidate on which `a` does not pair a `true` boolean
with a non-nil error (error-free evaluations, and every composite node,
satisfy this; the error itself is always propagated verbatim). -/
theorem not_not_outcome_amended (a : Spec α ε) (x : α)
    (h : ∀ err, (a.isSatisfiedBy x).2 = some err → (a.isSatisfiedBy x).1 = false) :
    (a.Not.Not).isSatisfiedBy x = a.isSatisfiedBy x := by
  rcases hA : a.isSatisfiedBy x with ⟨ab, ae⟩
  cases ae with
  | some e =>
    have hb : ab = false := by
      have hf := h e (by rw [hA])
      rwa [hA] at hf
    subst hb
    simp [Spec.Not, Spec.isSatisfiedBy, hA]
  | none =>
    simp [Spec.Not, Spec.isSatisfiedBy, hA]

theorem not_not_outcome_amended_witness :
    (∀ err, (leafE.isSatisfiedBy 0).2 = some err → (leafE.isSatisfiedBy 0).1 = false) ∧
    (leafE.Not.Not).isSatisfiedBy 0 = leafE.isSatisfiedBy 0 :=
  ⟨by simp [leafE, Spec.isSatisfiedBy],
    not_not_outcome_amended leafE 0 (by simp [leafE, Spec.isSatisfiedBy])⟩

/-- C8: the variadic calls `a.And(b, c)` and `a.Or(b, c)` yield the
same `(bool, error)` evaluation outcome as the chained binary
compositions `a.And(b).And(c)` and `a.Or(b).Or(c)`, on every
candidate. -/
theorem variadic_matches_chained (a b c : Spec α ε) (x : α) :
    (a.And b [c]).isSatisfiedBy x = ((a.And b []).And c []).isSatisfiedBy x ∧
    (a.Or b [c]).isSatisfiedBy x = ((a.Or b []).Or c []).isSatisfiedBy x := by
  rcases hA : a.isSatisfiedBy x with ⟨ab, ae⟩
  rcases hB : b.isSatisfiedBy x with ⟨bb, be⟩
  cases ae <;> cases be <;> cases ab <;> cases bb <;>
    simp [Spec.And, Spec.Or, Spec.isSatisfiedBy, evalAndList, evalOrList, hA, hB]

/-- C9: with leaves describing `"A"` and `"B"`, the composite
`A.and(B)` describes as `"(A AND B)"` by default; rendering under the
default vocabulary agrees with the hard-coded `Describe` of
`src/gospec.go` on every tree, and after replacing the four operator
tokens with `{"&&","||","!=","!"}` the same composite — built before
the change — describes as `"(A && B)"`. -/
theorem describe_vocabulary_roundtrip (f g : α → Bool × Option ε) :
    (∀ s : Spec α ε, describeWith defaultOperators s = s.describe) ∧
    ((Spec.leaf f "A").And (Spec.leaf g "B") []).describe = "(A AND B)" ∧
    describeWith ⟨"&&", "||", "!=", "!"⟩ ((Spec.leaf f "A").And (Spec.leaf g "B") []) =
      "(A && B)" := by
  refine ⟨describeWith_default, ?_, ?_⟩
  · simp only [Spec.And, Spec.describe, describeList]
    rfl
  · simp only [Spec.And, describeWith, describeListWith]
    rfl

/-- For the conjunction loop: whenever the returned error is non-nil,
the returned boolean is `false`. -/
theorem evalAndList_err_fst_false (cs : List (Spec α ε)) (x : α) (err : ε)
    (h : (evalAndList cs x).2 = some err) : (evalAndList cs x).1 = false := by
  induction cs with
  | nil => simp [evalAndList] at h
  | cons c rest ih =>
    rcases hC : c.isSatisfiedBy x with ⟨cb, ce⟩
    cases ce with
    | some e => simp [evalAndList, hC]
    | none =>
      cases cb with
      | false => simp [evalAndList, hC] at h
      | true =>
        simp only [evalAndList, hC] at h ⊢
        exact ih h

/-- For the disjunction loop: whenever the returned error is non-nil,
the returned boolean is `false`. -/
theorem evalOrList_err_fst_false (cs : List (Spec α ε)) (x : α) (err : ε)
    (h : (evalOrList cs x).2 = some err) : (evalOrList cs x).1 = false := by
  induction cs with
  | nil => simp [evalOrList] at h
  | cons c rest ih =>
    rcases hC : c.isSatisfiedBy x with ⟨cb, ce⟩
    cases ce with
    | some e => simp [evalOrList, hC]
    | none =>
      cases cb with
      | true => simp [evalOrList, hC] at h
      | false =>
        simp only [evalOrList, hC] at h ⊢
        exact ih h

/-- C10: for every composite node kind (conjunction, disjunction,
exclusive-or, negation) and every candidate, whenever evaluation
returns a non-nil error the accompanying boolean is exactly `false`. -/
theorem composite_error_bool_false (s : Spec α ε) (x : α) (err : ε)
    (hcomp : s.isComposite = true)
    (herr : (s.isSatisfiedBy x).2 = some err) :
    (s.isSatisfiedBy x).1 = false := by
  cases s with
  | leaf f d => simp [Spec.isComposite] at hcomp
  | and cs =>
    simp only [Spec.isSatisfiedBy] at herr ⊢
    exact evalAndList_err_fst_false cs x err herr
  | or cs =>
    simp only [Spec.isSatisfiedBy] at herr ⊢
    exact evalOrList_err_fst_false cs x err herr
  | xor l r =>
    simp only [Spec.isSatisfiedBy] at herr ⊢
    rcases hL : l.isSatisfiedBy x with ⟨lb, le⟩
    rcases hR : r.isSatisfiedBy x with ⟨rb, re⟩
    cases le with
    | some e => simp [hL]
    | none =>
      cases re with
      | some e => simp [hL, hR]
      | none =>
        rw [hL, hR] at herr
        simp at herr
  | not c =>
    simp only [Spec.isSatisfiedBy] at herr ⊢
    rcases hC : c.isSatisfiedBy x with ⟨cb, ce⟩
    cases ce with
    | some e => simp [hC]
    | none =>
      rw [hC] at herr
      simp at herr

theorem composite_error_bool_false_witness :
    ((Spec.not leafTE).isComposite = true ∧
      ((Spec.not leafTE).isSatisfiedBy 0).2 = some 3) ∧
    ((Spec.not leafTE).isSatisfiedBy 0).1 = false :=
  ⟨⟨by simp [Spec.isComposite], by simp [Spec.isSatisfiedBy, leafTE]⟩,
    composite_error_bool_false (Spec.not leafTE) 0 3
      (by simp [Spec.isComposite]) (by simp [Spec.isSatisfiedBy, leafTE])⟩

end Gospec
